import Mathlib

/-!
# CurvePoint envelope protocol — verification of the specification against the source

This development shallowly embeds `src/CurvePoint.ts` (class `CurvePoint`:
`encrypt`, `decrypt`, `buildHeader`, `parseHeader`, `addParticipant`,
`removeParticipant`) and settles the frozen claims about it.

Modelling conventions, fixed once here:

* Byte buffers (`number[]` in the source) are `List Nat`.
* Identities are the 33 decoded bytes of the source's 66-hex-character
  strings.  Hex encoding is injective on byte lists, so the source's string
  comparisons (`===`, `.includes`) become list equality / membership, and the
  source's `validatePublicKey` (66 hex chars) becomes a length-33 check.
* The `Utils.Reader` / `Utils.Writer` of the external `@bsv/sdk` are not part
  of this repository; they are modelled from the specification's wire format
  (§4.1: little-endian integers, Bitcoin-style varint) together with the
  slice semantics that the source itself witnesses (it checks
  `read(33).length !== 33`, which is only meaningful when a read near the end
  of the buffer returns the short remainder rather than failing).  A reader
  is represented by its remaining-byte list; scalar reads past the end of the
  buffer yield JavaScript `undefined`, modelled as `Option.none`: comparing
  `undefined` with `<`/`<=` is false and a `for (i = 0; i < undefined; i++)`
  loop runs zero times, which the embedding spells out at each use site.
* The wallet collaborator (`this.wallet`) is external; it is a parameter: an
  identity plus wrap/unwrap oracles returning `Except String` (its
  `protocolID`/`keyID` context is passed through opaquely by the source and
  never inspected, so it is omitted).  The symmetric cipher is likewise a
  parameter; a `SymmetricKey` is identified with its byte material
  (`new SymmetricKey(bytes).toArray() = bytes`).
* `async`/`try`/`catch` become the `Except String` monad; the source's
  `catch` blocks that replace or prefix error messages are translated
  literally, since claim C3 is about error identity.
-/

namespace CurvePoint

/-- One recipient entry of the header, as the specification's data model
names it: `(recipientIdentity, wrapCounterpartyIdentity, wrappedKey)`. -/
structure Entry where
  recipient : List Nat
  sender : List Nat
  key : List Nat
deriving Repr, DecidableEq

/-- `Utils.Reader.read(n)`: the next `n` bytes (or the short remainder near
the end of the buffer) together with the rest of the buffer. -/
def readBytes (n : Nat) (r : List Nat) : List Nat × List Nat :=
  (r.take n, r.drop n)

/-- `Utils.Writer.writeUInt32LE`: the four little-endian bytes of
`n mod 2^32` (JavaScript `>>>`-style truncation to an unsigned 32-bit
value). -/
def writeUInt32LE (n : Nat) : List Nat :=
  [n % 256, n / 256 % 256, n / 65536 % 256, n / 16777216 % 256]

/-- `Utils.Reader.readUInt32LE`: four little-endian bytes, `none` when fewer
than four bytes remain (a read past the end of the buffer). -/
def readUInt32LE : List Nat → Option (Nat × List Nat)
  | a :: b :: c :: d :: rest => some (a + 256 * b + 65536 * c + 16777216 * d, rest)
  | _ => none

/-- `Utils.Writer.writeVarIntNum`: Bitcoin-style varint — one byte below
`0xfd`, else a marker byte `0xfd`/`0xfe`/`0xff` followed by a 2-, 4- or
8-byte little-endian payload. -/
def writeVarIntNum (n : Nat) : List Nat :=
  if n < 253 then [n]
  else if n < 65536 then [253, n % 256, n / 256 % 256]
  else if n < 4294967296 then 254 :: writeUInt32LE n
  else 255 :: [n % 256, n / 256 % 256, n / 65536 % 256, n / 16777216 % 256,
    n / 4294967296 % 256, n / 1099511627776 % 256,
    n / 281474976710656 % 256, n / 72057594037927936 % 256]

/-- `Utils.Reader.readVarIntNum`: inverse of `writeVarIntNum`.  `none` covers
every read past the end of the buffer (JavaScript `undefined`) as well as the
8-byte form's loss-of-precision rejection above `2^53`. -/
def readVarIntNum : List Nat → Option (Nat × List Nat)
  | [] => none
  | b :: rest =>
    if b < 253 then some (b, rest)
    else if b = 253 then
      match rest with
      | x :: y :: rest2 => some (x + 256 * y, rest2)
      | _ => none
    else if b = 254 then readUInt32LE rest
    else
      match rest with
      | b0 :: b1 :: b2 :: b3 :: b4 :: b5 :: b6 :: b7 :: rest2 =>
        let m := b0 + 256 * b1 + 65536 * b2 + 16777216 * b3 + 4294967296 * b4 +
          1099511627776 * b5 + 281474976710656 * b6 + 72057594037927936 * b7
        if m < 9007199254740992 then some (m, rest2) else none
      | _ => none

/-- Serialization of one recipient entry, exactly the bytes the source's
`buildHeader` writes per entry: 33-byte recipient, 33-byte wrap counterparty,
varint key length, key bytes. -/
def encodeEntry (e : Entry) : List Nat :=
  e.recipient ++ e.sender ++ writeVarIntNum e.key.length ++ e.key

/-- Serialization of an entry list in order. -/
def encodeEntries (es : List Entry) : List Nat :=
  (es.map encodeEntry).flatten

/-- The header content (without its own length prefix): version, recipient
count, entries, administrator count, administrator identities.  Modelled from
the spec: §4.1 `Header` layout; `buildHeader_eq_encode` below proves the
source's `buildHeader` emits exactly this. -/
def headerContent (v : Nat) (es : List Entry) (adm : List (List Nat)) : List Nat :=
  writeUInt32LE v ++ writeVarIntNum es.length ++ encodeEntries es ++
    writeVarIntNum adm.length ++ adm.flatten

/-- A whole envelope: varint header length, header content, then the body.
Modelled from the spec: §4.1 `Envelope` layout. -/
def encodeEnvelope (v : Nat) (es : List Entry) (adm : List (List Nat))
    (body : List Nat) : List Nat :=
  writeVarIntNum (headerContent v es adm).length ++ headerContent v es adm ++ body

theorem readBytes_append {xs : List Nat} (t : List Nat) (h : xs.length = n) :
    readBytes n (xs ++ t) = (xs, t) := by
  subst h
  simp [readBytes, List.take_left, List.drop_left]

theorem readUInt32LE_write (n : Nat) (h : n < 4294967296) (t : List Nat) :
    readUInt32LE (writeUInt32LE n ++ t) = some (n, t) := by
  simp only [writeUInt32LE, List.cons_append, List.nil_append, readUInt32LE,
    Option.some.injEq, Prod.mk.injEq, and_true]
  omega

theorem readVarIntNum_write (n : Nat) (h : n < 4294967296) (t : List Nat) :
    readVarIntNum (writeVarIntNum n ++ t) = some (n, t) := by
  by_cases h1 : n < 253
  · simp [writeVarIntNum, readVarIntNum, h1]
  · by_cases h2 : n < 65536
    · simp only [writeVarIntNum, if_neg h1, if_pos h2, List.cons_append,
        List.nil_append, readVarIntNum]
      rw [if_neg (by omega), if_true]
      simp only [Option.some.injEq, Prod.mk.injEq, and_true]
      omega
    · simp only [writeVarIntNum, if_neg h1, if_neg h2, if_pos h, List.cons_append,
        readVarIntNum]
      rw [if_neg (by omega), if_neg (by omega), if_true]
      exact readUInt32LE_write n h t

/-- Result of `parseHeader`: the raw header bytes, the trailing message, and
the administrator identities. -/
structure ParsedHeader where
  header : List Nat
  message : List Nat
  administrators : List (List Nat)
deriving Repr, DecidableEq

/-- The recipient-entry loop of `parseHeader` (source lines 290–319), one
iteration per claimed recipient.  A short fixed read or a key-length mismatch
skips the entry (`console.warn` + `continue`).  When the key-length varint
itself reads past the end of the buffer, JavaScript makes the length
`undefined`, `read(undefined)` returns nothing and the cursor becomes `NaN`,
after which every further read returns nothing: the reader is modelled as
emptied.  The accumulated records are dropped by `parseHeader` (the source
never returns its local `recipients`), but are kept here to mirror it. -/
def phEntryLoop : Nat → List Nat → List Entry → List Entry × List Nat
  | 0, r, acc => (acc, r)
  | i + 1, r, acc =>
    let (recipientKey, r1) := readBytes 33 r
    if recipientKey.length ≠ 33 then phEntryLoop i r1 acc
    else
      let (senderKey, r2) := readBytes 33 r1
      if senderKey.length ≠ 33 then phEntryLoop i r2 acc
      else
        match readVarIntNum r2 with
        | none => phEntryLoop i [] acc
        | some (encryptedKeyLength, r3) =>
          let (encryptedKey, r4) := readBytes encryptedKeyLength r3
          if encryptedKey.length ≠ encryptedKeyLength then phEntryLoop i r4 acc
          else phEntryLoop i r4 (acc ++ [⟨recipientKey, senderKey, encryptedKey⟩])

/-- The administrator loop of `parseHeader` (source lines 329–338): reads
33-byte identities, skipping (not failing on) short reads. -/
def phAdminLoop : Nat → List Nat → List (List Nat) → List (List Nat) × List Nat
  | 0, r, acc => (acc, r)
  | i + 1, r, acc =>
    let (adminKey, r1) := readBytes 33 r
    if adminKey.length ≠ 33 then phAdminLoop i r1 acc
    else phAdminLoop i r1 (acc ++ [adminKey])

/-- Body of `CurvePoint.parseHeader` before its `catch` (source lines
259–344).  The two `none` fall-throughs for the recipient and administrator
counts mirror JavaScript: an `undefined` count makes both `count <= 0` style
checks false and both loops run zero times, so the call *returns* with an
empty administrator list instead of failing.  The `none` branches of the
header-length varint and of the version read are reads past the end of the
buffer whose JavaScript outcome the sdk does not pin down; they are mapped to
errors and no claim depends on them. -/
def parseHeaderInner (ciphertext : List Nat) : Except String ParsedHeader :=
  match readVarIntNum ciphertext with
  | none => .error "Header length read underrun."
  | some (headerLength, r) =>
    if headerLength > r.length then
      .error "Header length exceeds available data."
    else
      let (header, _) := readBytes headerLength r
      let message := r.drop headerLength
      match readUInt32LE header with
      | none => .error "Unsupported or invalid header version."
      | some (version, h1) =>
        if version < 1 then .error "Unsupported or invalid header version."
        else
          match readVarIntNum h1 with
          | none => .ok ⟨header, message, []⟩
          | some (numRecipients, h2) =>
            if numRecipients ≤ 0 then .error "No recipients found in the header."
            else
              let (_, h3) := phEntryLoop numRecipients h2 []
              match readVarIntNum h3 with
              | none => .ok ⟨header, message, []⟩
              | some (numAdministrators, h4) =>
                if numAdministrators < 1 then .error "No administrators found in the header."
                else
                  let (administrators, _) := phAdminLoop numAdministrators h4 []
                  .ok ⟨header, message, administrators⟩

/-- `CurvePoint.parseHeader`: the body above with its `catch`, which replaces
every failure by the one fixed message. -/
def parseHeader (ciphertext : List Nat) : Except String ParsedHeader :=
  match parseHeaderInner ciphertext with
  | .ok ph => .ok ph
  | .error _ => .error "Failed to parse header or message."

/-- The source's `validatePublicKey` helper: 66 hex characters, i.e. 33
identity bytes. -/
def validatePublicKey (key : List Nat) : Bool := key.length == 33

/-- The cleaning pass of `buildHeader` (source lines 182–196): walk the
recipients with their index, silently dropping any recipient that is not a
well-formed identity, has no corresponding encrypted key, or has an empty
one. -/
def cleanRecipients (recipients : List (List Nat)) (encryptedKeys : List (List Nat))
    (i : Nat) : List (List Nat × List Nat) :=
  match recipients with
  | [] => []
  | recipient :: rest =>
    let tail := cleanRecipients rest encryptedKeys (i + 1)
    if ¬ validatePublicKey recipient then tail
    else
      match encryptedKeys.get? i with
      | none => tail
      | some k => if k.length = 0 then tail else (recipient, k) :: tail

/-- First administrator identity failing `validatePublicKey`, with its index
(source lines 230–234). -/
def findInvalidAdmin : List (List Nat) → Nat → Option (Nat × List Nat)
  | [], _ => none
  | a :: rest, i =>
    if ¬ validatePublicKey a then some (i, a) else findInvalidAdmin rest (i + 1)

/-- The bytes `buildHeader`'s writer accumulates before length prefixing
(source lines 174–246): incremented version, recipient count, one
`recipient ++ sender ++ varint(len) ++ key` block per cleaned recipient,
administrator count, administrator identities. -/
def buildHeaderContent (senderPublicKey : List Nat)
    (cleaned : List (List Nat × List Nat)) (administrators : List (List Nat))
    (newVersion : Nat) : List Nat :=
  writeUInt32LE newVersion ++ writeVarIntNum cleaned.length ++
    (cleaned.map (fun p => p.1 ++ senderPublicKey ++
      writeVarIntNum p.2.length ++ p.2)).flatten ++
    writeVarIntNum administrators.length ++ administrators.flatten

/-- `CurvePoint.buildHeader` (source lines 155–256).  Writer appends become
list concatenation; the version written is `currentVersion + 1` truncated to
32 bits by `writeUInt32LE`. -/
def buildHeader (senderPublicKey : List Nat) (recipients : List (List Nat))
    (encryptedKeys : List (List Nat)) (administrators : List (List Nat))
    (currentVersion : Nat) : Except String (List Nat) :=
  if ¬ validatePublicKey senderPublicKey then
    .error ("Invalid sender public key: " ++ toString senderPublicKey)
  else if (cleanRecipients recipients encryptedKeys 0).length = 0 then
    .error "No valid recipients found to build the header."
  else if administrators.length = 0 then
    .error "Administrators list cannot be empty."
  else
    match findInvalidAdmin administrators 0 with
    | some (i, a) =>
      .error ("Invalid administrator public key at index " ++ toString i ++ ": " ++ toString a)
    | none =>
      .ok (writeVarIntNum (buildHeaderContent senderPublicKey
          (cleanRecipients recipients encryptedKeys 0) administrators
          (currentVersion + 1)).length ++
        buildHeaderContent senderPublicKey (cleanRecipients recipients encryptedKeys 0)
          administrators (currentVersion + 1))

/-- The identity/key-wrap collaborator (`this.wallet`): the caller's own
identity, and wrap/unwrap oracles.  `protocolID`/`keyID` are passed through
opaquely by the source and never inspected, so they are omitted. -/
structure Wallet where
  identity : List Nat
  wencrypt : List Nat → List Nat → Except String (List Nat)
  wdecrypt : List Nat → List Nat → Except String (List Nat)

/-- The per-recipient `Promise.all` of `encrypt` (source lines 45–58): wrap
the symmetric key for every recipient in order; any single failure rejects
the whole batch. -/
def wrapForAll (w : Wallet) (symKey : List Nat) :
    List (List Nat) → Except String (List (List Nat))
  | [] => .ok []
  | r :: rest => do
    let c ← w.wencrypt r symKey
    let cs ← wrapForAll w symKey rest
    pure (c :: cs)

/-- First administrator whose identity is not 33 bytes (66 hex characters),
the check of `encrypt` at source lines 38–42. -/
def findShortAdmin : List (List Nat) → Option (List Nat)
  | [] => none
  | a :: rest => if a.length ≠ 33 then some a else findShortAdmin rest

/-- Body of `CurvePoint.encrypt` before its `catch` (source lines 20–65).
The fresh symmetric key and the symmetric cipher are parameters (randomness
and the external cipher as inputs). -/
def encryptInner (w : Wallet) (symKey : List Nat)
    (symEncrypt : List Nat → List Nat → List Nat) (message : List Nat)
    (recipients : List (List Nat)) (administrators : Option (List (List Nat))) :
    Except String (List Nat × List Nat) :=
  let encryptedMessage := symEncrypt symKey message
  let senderPublicKey := w.identity
  let admins :=
    match administrators with
    | none => [senderPublicKey]
    | some l => if senderPublicKey ∈ l then l else senderPublicKey :: l
  match findShortAdmin admins with
  | some a => .error ("Invalid administrator public key: " ++ toString a)
  | none =>
    match wrapForAll w symKey recipients with
    | .error e => .error e
    | .ok encryptedKeys =>
      match buildHeader senderPublicKey recipients encryptedKeys admins 0 with
      | .error e => .error e
      | .ok header => .ok (encryptedMessage, header)

/-- `CurvePoint.encrypt`: the body above with its `catch`, which prefixes the
inner message. -/
def encrypt (w : Wallet) (symKey : List Nat)
    (symEncrypt : List Nat → List Nat → List Nat) (message : List Nat)
    (recipients : List (List Nat)) (administrators : Option (List (List Nat))) :
    Except String (List Nat × List Nat) :=
  match encryptInner w symKey symEncrypt message recipients administrators with
  | .ok res => .ok res
  | .error e => .error ("Encryption failed: " ++ e)

/-- The recipient scan of `decrypt` (source lines 98–138): read each entry,
and on the first whose recipient equals the caller's identity try to unwrap;
an unwrap failure is caught and the scan *continues* (source line 132).
Returns the unwrapped key of the first matching entry that unwraps, `none`
when the loop ends without one. -/
def decryptLoop (w : Wallet) : Nat → List Nat → Option (List Nat)
  | 0, _ => none
  | i + 1, r =>
    let (recipientKeyBytes, r1) := readBytes 33 r
    let (senderKeyBytes, r2) := readBytes 33 r1
    match readVarIntNum r2 with
    | none => decryptLoop w i []
    | some (encryptedKeyLength, r3) =>
      let (encryptedKey, r4) := readBytes encryptedKeyLength r3
      if recipientKeyBytes = w.identity then
        match w.wdecrypt senderKeyBytes encryptedKey with
        | .ok plaintext => some plaintext
        | .error _ => decryptLoop w i r4
      else decryptLoop w i r4

/-- Body of `CurvePoint.decrypt` before its `catch` (source lines 77–148).
`decrypt` reads but never checks the version.  An `undefined` recipient count
(read past the end) runs the loop zero times, landing in the same
"not found" failure. -/
def decryptInner (w : Wallet) (symDecrypt : List Nat → List Nat → List Nat)
    (ciphertext : List Nat) : Except String (List Nat) :=
  match parseHeader ciphertext with
  | .error e => .error e
  | .ok ph =>
    match readUInt32LE ph.header with
    | none => .error "Version read underrun."
    | some (_version, h1) =>
      match readVarIntNum h1 with
      | none => .error "Your key is not found in the header."
      | some (numRecipients, h2) =>
        match decryptLoop w numRecipients h2 with
        | none => .error "Your key is not found in the header."
        | some symKey => .ok (symDecrypt symKey ph.message)

/-- `CurvePoint.decrypt`: the body above with its `catch`, which prefixes the
inner message with `Decryption failed: `. -/
def decrypt (w : Wallet) (symDecrypt : List Nat → List Nat → List Nat)
    (ciphertext : List Nat) : Except String (List Nat) :=
  match decryptInner w symDecrypt ciphertext with
  | .ok m => .ok m
  | .error e => .error ("Decryption failed: " ++ e)

/-- Loop state of `addParticipant`'s entry scan: the reader remainder, the
accumulated recipients and wrapped keys, the last sender key read
(`senderPublicKey`, reassigned on every entry whose two fixed reads succeed),
and the symmetric key once one entry has been unwrapped. -/
structure AddLoopState where
  rem : List Nat
  recipients : List (List Nat)
  keys : List (List Nat)
  sender : Option (List Nat)
  sym : Option (List Nat)
deriving Repr, DecidableEq

/-- The entry scan of `addParticipant` (source lines 378–423).  Malformed
entries are skipped; `senderPublicKey` is assigned as soon as the sender
field is read, even when the entry is later skipped; the wallet unwrap is
attempted on each accepted entry until one succeeds, and an unwrap failure is
caught and skipped (the entry stays accepted). -/
def addLoop (w : Wallet) : Nat → AddLoopState → AddLoopState
  | 0, s => s
  | i + 1, s =>
    let (recipientKeyBytes, r1) := readBytes 33 s.rem
    if recipientKeyBytes.length ≠ 33 then addLoop w i { s with rem := r1 }
    else
      let (senderKeyBytes, r2) := readBytes 33 r1
      if senderKeyBytes.length ≠ 33 then addLoop w i { s with rem := r2 }
      else
        match readVarIntNum r2 with
        | none => addLoop w i { s with rem := [], sender := some senderKeyBytes }
        | some (encryptedKeyLength, r3) =>
          let (encryptedKey, r4) := readBytes encryptedKeyLength r3
          if encryptedKey.length ≠ encryptedKeyLength then
            addLoop w i { s with rem := r4, sender := some senderKeyBytes }
          else
            let s' : AddLoopState :=
              { rem := r4, recipients := s.recipients ++ [recipientKeyBytes],
                keys := s.keys ++ [encryptedKey], sender := some senderKeyBytes,
                sym := s.sym }
            match s.sym with
            | some _ => addLoop w i s'
            | none =>
              match w.wdecrypt senderKeyBytes encryptedKey with
              | .ok plaintext => addLoop w i { s' with sym := some plaintext }
              | .error _ => addLoop w i s'

/-- Body of `CurvePoint.addParticipant` before its `catch` (source lines
357–447).  Note that it never consults the caller's identity: the symmetric
key comes from whichever entry first unwraps, and the rebuilt header's single
sender is the last sender key read from the old header. -/
def addParticipantInner (w : Wallet) (iheader : List Nat)
    (newParticipant : List Nat) : Except String (List Nat) :=
  match parseHeader iheader with
  | .error e => .error e
  | .ok ph =>
    match readUInt32LE ph.header with
    | none => .error "Version read underrun."
    | some (version, h1) =>
      if version < 1 then .error "Unsupported header version."
      else
        match readVarIntNum h1 with
        | none => .error "Sender public key not found in the header."
        | some (numRecipients, h2) =>
          if numRecipients ≤ 0 then .error "No recipients found in the header."
          else
            let s := addLoop w numRecipients ⟨h2, [], [], none, none⟩
            match s.sender with
            | none => .error "Sender public key not found in the header."
            | some senderPublicKey =>
              if newParticipant ∈ s.recipients then
                .error ("Participant " ++ toString newParticipant ++
                  " already exists in the header.")
              else
                match s.sym with
                | none => .error "Symmetric key not found in the header."
                | some symKey =>
                  match w.wencrypt newParticipant symKey with
                  | .error e => .error e
                  | .ok newEncryptedKey =>
                    buildHeader senderPublicKey (s.recipients ++ [newParticipant])
                      (s.keys ++ [newEncryptedKey]) ph.administrators version

/-- `CurvePoint.addParticipant`: the body above with its `catch`, which
replaces every failure by the one fixed message. -/
def addParticipant (w : Wallet) (iheader : List Nat) (newParticipant : List Nat) :
    Except String (List Nat) :=
  match addParticipantInner w iheader newParticipant with
  | .ok h => .ok h
  | .error _ => .error "Failed to add new participant to the header."

/-- Loop state of `removeParticipant`'s entry scan. -/
structure RemoveLoopState where
  rem : List Nat
  recipients : List (List Nat)
  keys : List (List Nat)
  sender : Option (List Nat)
deriving Repr, DecidableEq

/-- The entry scan of `removeParticipant` (source lines 486–521): like
`addParticipant`'s scan but with no unwrapping, and entries whose recipient
equals the target are not accumulated. -/
def removeLoop (target : List Nat) : Nat → RemoveLoopState → RemoveLoopState
  | 0, s => s
  | i + 1, s =>
    let (recipientKeyBytes, r1) := readBytes 33 s.rem
    if recipientKeyBytes.length ≠ 33 then removeLoop target i { s with rem := r1 }
    else
      let (senderKeyBytes, r2) := readBytes 33 r1
      if senderKeyBytes.length ≠ 33 then removeLoop target i { s with rem := r2 }
      else
        match readVarIntNum r2 with
        | none => removeLoop target i { s with rem := [], sender := some senderKeyBytes }
        | some (encryptedKeyLength, r3) =>
          let (encryptedKey, r4) := readBytes encryptedKeyLength r3
          if encryptedKey.length ≠ encryptedKeyLength then
            removeLoop target i { s with rem := r4, sender := some senderKeyBytes }
          else if recipientKeyBytes ≠ target then
            removeLoop target i
              { rem := r4, recipients := s.recipients ++ [recipientKeyBytes],
                keys := s.keys ++ [encryptedKey], sender := some senderKeyBytes }
          else
            removeLoop target i { s with rem := r4, sender := some senderKeyBytes }

/-- Body of `CurvePoint.removeParticipant` before its `catch` (source lines
455–537).  Only the administrator check consults the caller's identity.  The
`recipients.includes(target)` re-check can never fire (matching entries were
never accumulated), so an absent target is *not* detected. -/
def removeParticipantInner (w : Wallet) (iheader : List Nat)
    (targetParticipant : List Nat) : Except String (List Nat) :=
  match parseHeader iheader with
  | .error e => .error e
  | .ok ph =>
    match readUInt32LE ph.header with
    | none => .error "Version read underrun."
    | some (version, h1) =>
      if version < 1 then .error "Unsupported header version."
      else if w.identity ∉ ph.administrators then
        .error "Only administrators are allowed to remove participants."
      else
        match readVarIntNum h1 with
        | none => .error "Sender public key not found in the header."
        | some (numRecipients, h2) =>
          if numRecipients ≤ 0 then .error "No recipients found in the header."
          else
            let s := removeLoop targetParticipant numRecipients ⟨h2, [], [], none⟩
            match s.sender with
            | none => .error "Sender public key not found in the header."
            | some senderPublicKey =>
              if targetParticipant ∈ s.recipients then
                .error "Failed to remove participant from the header."
              else
                buildHeader senderPublicKey s.recipients s.keys ph.administrators version

/-- `CurvePoint.removeParticipant`: the body above with its `catch`, which
replaces every failure by the one fixed message. -/
def removeParticipant (w : Wallet) (iheader : List Nat)
    (targetParticipant : List Nat) : Except String (List Nat) :=
  match removeParticipantInner w iheader targetParticipant with
  | .ok h => .ok h
  | .error _ => .error "Failed to remove participant."

/-- The version field of an emitted or supplied envelope: the u32 after the
length varint.  Used to state the versioning claims. -/
def headerVersion (bs : List Nat) : Option Nat :=
  match readVarIntNum bs with
  | none => none
  | some (_, r) =>
    match readUInt32LE r with
    | none => none
    | some (v, _) => some v

/-- Strict (fail-closed) decoding of `n` recipient entries — the entry reader
the specification's §4.1 `decodeEnvelope` mandates, used here as a projection
to state claims about which entries an envelope carries. -/
def decodeEntriesList : Nat → List Nat → Option (List Entry × List Nat)
  | 0, r => some ([], r)
  | i + 1, r =>
    let (rk, r1) := readBytes 33 r
    if rk.length = 33 then
      let (sk, r2) := readBytes 33 r1
      if sk.length = 33 then
        match readVarIntNum r2 with
        | some (len, r3) =>
          let (k, r4) := readBytes len r3
          if k.length = len then
            match decodeEntriesList i r4 with
            | some (es, r5) => some (⟨rk, sk, k⟩ :: es, r5)
            | none => none
          else none
        | none => none
      else none
    else none

/-- The recipient entries of an envelope, by strict decoding.  Modelled from
the spec: §4.1 layout; `envelopeEntries_encode` below shows it recovers
exactly what `encodeEnvelope` wrote. -/
def envelopeEntries (bs : List Nat) : Option (List Entry) :=
  match readVarIntNum bs with
  | none => none
  | some (headerLength, r) =>
    if headerLength > r.length then none
    else
      let header := r.take headerLength
      match readUInt32LE header with
      | none => none
      | some (_v, h1) =>
        match readVarIntNum h1 with
        | none => none
        | some (n, h2) =>
          match decodeEntriesList n h2 with
          | some (es, _) => some es
          | none => none

/-- The sender key held by `addParticipant`/`removeParticipant` after their
scans: the scan's running `senderPublicKey`, starting from `s0` and replaced
by each entry's sender field in turn. -/
def lastSenderFrom (s0 : Option (List Nat)) : List Entry → Option (List Nat)
  | [] => s0
  | e :: es => lastSenderFrom (some e.sender) es

theorem lastSenderFrom_some :
    ∀ (es : List Entry) (e : Entry),
      lastSenderFrom (some e.sender) es = some ((es.getLastD e).sender)
  | [], _ => rfl
  | e' :: es, e => by
    rw [lastSenderFrom, List.getLastD_cons, lastSenderFrom_some es e']

/-- Well-formed recipient entries: 33-byte identities, a non-empty wrapped
key of varint-representable length. -/
abbrev WFEntries (es : List Entry) : Prop :=
  ∀ e ∈ es, e.recipient.length = 33 ∧ e.sender.length = 33 ∧
    e.key ≠ [] ∧ e.key.length < 4294967296

/-- Well-formed administrator section: non-empty, 33-byte identities,
varint-representable count. -/
abbrev WFAdmins (adm : List (List Nat)) : Prop :=
  adm ≠ [] ∧ (∀ a ∈ adm, a.length = 33) ∧ adm.length < 4294967296

/-- Well-formed envelope parameters: version in `[1, 2^32)`, a non-empty
well-formed entry list of representable count, a well-formed administrator
section, and a header short enough for its length varint. -/
abbrev WFEnvelope (v : Nat) (es : List Entry) (adm : List (List Nat)) : Prop :=
  1 ≤ v ∧ v < 4294967296 ∧ es ≠ [] ∧ WFEntries es ∧ es.length < 4294967296 ∧
    WFAdmins adm ∧ (headerContent v es adm).length < 4294967296

theorem encodeEntries_cons (e : Entry) (es : List Entry) :
    encodeEntries (e :: es) = encodeEntry e ++ encodeEntries es := by
  simp [encodeEntries]

theorem encodeEntry_split (e : Entry) (t : List Nat) :
    encodeEntry e ++ t =
      e.recipient ++ (e.sender ++ (writeVarIntNum e.key.length ++ (e.key ++ t))) := by
  simp [encodeEntry, List.append_assoc]

theorem phEntryLoop_encode :
    ∀ (es : List Entry) (tail : List Nat) (acc : List Entry), WFEntries es →
      phEntryLoop es.length (encodeEntries es ++ tail) acc = (acc ++ es, tail)
  | [], tail, acc, _ => by simp [phEntryLoop, encodeEntries]
  | e :: es, tail, acc, hwf => by
    obtain ⟨h1, h2, _, h4⟩ := hwf e (List.mem_cons_self e es)
    rw [List.length_cons, encodeEntries_cons, List.append_assoc, encodeEntry_split]
    simp only [phEntryLoop, readBytes_append _ h1, readBytes_append _ h2,
      readVarIntNum_write _ h4, readBytes_append _ (rfl : e.key.length = e.key.length),
      h1, h2, ne_eq, not_true_eq_false, ite_false]
    rw [phEntryLoop_encode es tail (acc ++ [e]) (fun x hx => hwf x (List.mem_cons_of_mem e hx))]
    simp

theorem phAdminLoop_encode :
    ∀ (adm : List (List Nat)) (tail : List Nat) (acc : List (List Nat)),
      (∀ a ∈ adm, a.length = 33) →
      phAdminLoop adm.length (adm.flatten ++ tail) acc = (acc ++ adm, tail)
  | [], tail, acc, _ => by simp [phAdminLoop]
  | a :: adm, tail, acc, h33 => by
    have h1 := h33 a (List.mem_cons_self a adm)
    rw [List.length_cons, List.flatten_cons, List.append_assoc]
    simp only [phAdminLoop, readBytes_append _ h1, h1, ne_eq, not_true_eq_false, ite_false]
    rw [phAdminLoop_encode adm tail (acc ++ [a]) (fun x hx => h33 x (List.mem_cons_of_mem a hx))]
    simp

/-- `parseHeader` accepts every well-formed encoded envelope, returning its
header content, body and administrators. -/
theorem parseHeader_encode (v : Nat) (es : List Entry) (adm : List (List Nat))
    (body : List Nat) (hwf : WFEnvelope v es adm) :
    parseHeader (encodeEnvelope v es adm body) =
      .ok ⟨headerContent v es adm, body, adm⟩ := by
  obtain ⟨hv1, hv2, hne, hes, hn, ⟨hadmne, hadm33, hm⟩, hlen⟩ := hwf
  have hne' : 0 < es.length := List.length_pos.mpr hne
  have hadmne' : 0 < adm.length := List.length_pos.mpr hadmne
  have hgt : ¬ ((headerContent v es adm).length >
      (headerContent v es adm ++ body).length) := by
    simp
  have hEntry := phEntryLoop_encode es
    (writeVarIntNum adm.length ++ adm.flatten) [] hes
  have hAdmin := phAdminLoop_encode adm [] [] hadm33
  rw [List.append_nil] at hAdmin
  have hinner : parseHeaderInner (encodeEnvelope v es adm body) =
      .ok ⟨headerContent v es adm, body, adm⟩ := by
    simp only [encodeEnvelope, List.append_assoc]
    simp only [parseHeaderInner, readVarIntNum_write _ hlen]
    rw [if_neg hgt]
    simp only [readBytes_append _ (rfl : (headerContent v es adm).length =
      (headerContent v es adm).length), List.drop_left]
    simp only [headerContent, List.append_assoc]
    simp only [readUInt32LE_write _ hv2]
    rw [if_neg (by omega)]
    simp only [readVarIntNum_write _ hn]
    rw [if_neg (by omega)]
    simp only [hEntry, readVarIntNum_write _ hm]
    rw [if_neg (by omega), hAdmin]
    simp [headerContent, List.append_assoc]
  rw [parseHeader, hinner]


theorem decodeEntriesList_encode :
    ∀ (es : List Entry) (tail : List Nat), WFEntries es →
      decodeEntriesList es.length (encodeEntries es ++ tail) = some (es, tail)
  | [], tail, _ => by simp [decodeEntriesList, encodeEntries]
  | e :: es, tail, hwf => by
    obtain ⟨h1, h2, -, h4⟩ := hwf e (List.mem_cons_self e es)
    rw [List.length_cons, encodeEntries_cons, List.append_assoc, encodeEntry_split]
    simp only [decodeEntriesList, readBytes_append _ h1, readBytes_append _ h2,
      readVarIntNum_write _ h4, readBytes_append _ (rfl : e.key.length = e.key.length),
      h1, h2, ite_true]
    rw [decodeEntriesList_encode es tail (fun x hx => hwf x (List.mem_cons_of_mem e hx))]

/-- The strict entry projection recovers exactly the entries an encoded
envelope carries. -/
theorem envelopeEntries_encode (v : Nat) (es : List Entry) (adm : List (List Nat))
    (body : List Nat) (hwf : WFEnvelope v es adm) :
    envelopeEntries (encodeEnvelope v es adm body) = some es := by
  obtain ⟨hv1, hv2, hne, hes, hn, ⟨hadmne, hadm33, hm⟩, hlen⟩ := hwf
  have hgt : ¬ ((headerContent v es adm).length >
      (headerContent v es adm ++ body).length) := by
    simp
  have hEnt := decodeEntriesList_encode es
    (writeVarIntNum adm.length ++ adm.flatten) hes
  simp only [envelopeEntries, encodeEnvelope, List.append_assoc,
    readVarIntNum_write _ hlen]
  rw [if_neg hgt]
  rw [show (headerContent v es adm ++ body).take (headerContent v es adm).length =
    headerContent v es adm from List.take_left _ _]
  simp only [headerContent, List.append_assoc, readUInt32LE_write _ hv2,
    readVarIntNum_write _ hn, hEnt]

/-- The version field of an encoded envelope is its version parameter. -/
theorem headerVersion_encode (v : Nat) (es : List Entry) (adm : List (List Nat))
    (body : List Nat) (hv : v < 4294967296)
    (hlen : (headerContent v es adm).length < 4294967296) :
    headerVersion (encodeEnvelope v es adm body) = some v := by
  have h := readVarIntNum_write _ hlen (headerContent v es adm ++ body)
  simp only [headerVersion, encodeEnvelope, List.append_assoc, h]
  simp only [headerContent, List.append_assoc, readUInt32LE_write _ hv]

theorem cleanRecipients_valid :
    ∀ (ps : List (List Nat × List Nat)) (pre : List (List Nat)),
      (∀ p ∈ ps, p.1.length = 33 ∧ p.2 ≠ []) →
      cleanRecipients (ps.map Prod.fst) (pre ++ ps.map Prod.snd) pre.length = ps
  | [], pre, _ => by simp [cleanRecipients]
  | p :: ps, pre, h => by
    obtain ⟨h1, h2⟩ := h p (List.mem_cons_self p ps)
    have hget : (pre ++ p.2 :: ps.map Prod.snd).get? pre.length = some p.2 := by
      rw [List.get?_append_right (le_refl pre.length)]
      simp
    have ih := cleanRecipients_valid ps (pre ++ [p.2])
      (fun x hx => h x (List.mem_cons_of_mem p hx))
    simp only [List.map_cons, cleanRecipients, hget, validatePublicKey, h1,
      beq_self_eq_true, not_true_eq_false, ite_false]
    rw [if_neg (show ¬ p.2.length = 0 by simpa using h2)]
    have hre : pre ++ p.2 :: ps.map Prod.snd = (pre ++ [p.2]) ++ ps.map Prod.snd := by
      simp
    rw [show pre.length + 1 = (pre ++ [p.2]).length by simp, hre, ih]

theorem findInvalidAdmin_none :
    ∀ (adm : List (List Nat)) (i : Nat), (∀ a ∈ adm, a.length = 33) →
      findInvalidAdmin adm i = none
  | [], _, _ => rfl
  | a :: adm, i, h => by
    have h1 := h a (List.mem_cons_self a adm)
    simp only [findInvalidAdmin, validatePublicKey, h1, beq_self_eq_true,
      not_true_eq_false, ite_false]
    exact findInvalidAdmin_none adm (i + 1) (fun x hx => h x (List.mem_cons_of_mem a hx))

theorem findShortAdmin_none :
    ∀ (adm : List (List Nat)), (∀ a ∈ adm, a.length = 33) →
      findShortAdmin adm = none
  | [], _ => rfl
  | a :: adm, h => by
    have h1 := h a (List.mem_cons_self a adm)
    simp only [findShortAdmin, h1, ne_eq, not_true_eq_false, ite_false]
    exact findShortAdmin_none adm (fun x hx => h x (List.mem_cons_of_mem a hx))

/-- `buildHeader` on any inputs whose cleaning pass keeps at least one
recipient and whose administrators validate: it emits exactly the encoded
envelope (with no body) of the cleaned entries, all carrying the one sender,
at the incremented version. -/
theorem buildHeader_ok (sender : List Nat) (rs ks : List (List Nat))
    (adm : List (List Nat)) (v : Nat) (hs : sender.length = 33)
    (hcl : cleanRecipients rs ks 0 ≠ []) (hadm : adm ≠ [])
    (hadm33 : ∀ a ∈ adm, a.length = 33) :
    buildHeader sender rs ks adm v =
      .ok (encodeEnvelope (v + 1)
        ((cleanRecipients rs ks 0).map fun p => ⟨p.1, sender, p.2⟩) adm []) := by
  have hFia := findInvalidAdmin_none adm 0 hadm33
  simp only [buildHeader, validatePublicKey, hs, beq_self_eq_true,
    not_true_eq_false, ite_false, if_false]
  rw [if_neg (by simpa using hcl), if_neg (by simpa using hadm), hFia]
  simp [buildHeaderContent, encodeEnvelope, headerContent, encodeEntries,
    List.map_map, Function.comp_def, encodeEntry]

/-- `addParticipant`'s scan over well-formed encoded entries once the
symmetric key is already in hand: every entry is accepted, the sender keeps
being overwritten, and the symmetric key never changes. -/
theorem addLoop_encode_found (w : Wallet) (pt : List Nat) :
    ∀ (es : List Entry) (tail : List Nat) (recs ks : List (List Nat))
      (snd : Option (List Nat)), WFEntries es →
      addLoop w es.length ⟨encodeEntries es ++ tail, recs, ks, snd, some pt⟩ =
        ⟨tail, recs ++ es.map Entry.recipient, ks ++ es.map Entry.key,
          lastSenderFrom snd es, some pt⟩
  | [], tail, recs, ks, snd, _ => by simp [addLoop, encodeEntries, lastSenderFrom]
  | e :: es, tail, recs, ks, snd, hwf => by
    obtain ⟨h1, h2, -, h4⟩ := hwf e (List.mem_cons_self e es)
    rw [List.length_cons, encodeEntries_cons, List.append_assoc, encodeEntry_split]
    simp only [addLoop, readBytes_append _ h1, readBytes_append _ h2,
      readVarIntNum_write _ h4, readBytes_append _ (rfl : e.key.length = e.key.length),
      h1, h2, ne_eq, not_true_eq_false, ite_false]
    rw [addLoop_encode_found w pt es tail (recs ++ [e.recipient]) (ks ++ [e.key])
      (some e.sender) (fun x hx => hwf x (List.mem_cons_of_mem e hx))]
    simp [lastSenderFrom]

/-- `addParticipant`'s scan over a well-formed encoded entry list whose first
entry unwraps: it accepts every entry, recovers the symmetric key from the
first one, and leaves as `senderPublicKey` the last entry's sender. -/
theorem addLoop_encode_first (w : Wallet) (e0 : Entry) (es : List Entry)
    (tail pt : List Nat) (hwf : WFEntries (e0 :: es))
    (hdec : w.wdecrypt e0.sender e0.key = .ok pt) :
    addLoop w (e0 :: es).length ⟨encodeEntries (e0 :: es) ++ tail, [], [], none, none⟩ =
      ⟨tail, (e0 :: es).map Entry.recipient, (e0 :: es).map Entry.key,
        lastSenderFrom (some e0.sender) es, some pt⟩ := by
  obtain ⟨h1, h2, -, h4⟩ := hwf e0 (List.mem_cons_self e0 es)
  rw [List.length_cons, encodeEntries_cons, List.append_assoc, encodeEntry_split]
  simp only [addLoop, readBytes_append _ h1, readBytes_append _ h2,
    readVarIntNum_write _ h4, readBytes_append _ (rfl : e0.key.length = e0.key.length),
    h1, h2, ne_eq, not_true_eq_false, ite_false, hdec, List.nil_append]
  rw [addLoop_encode_found w pt es tail [e0.recipient] [e0.key] (some e0.sender)
    (fun x hx => hwf x (List.mem_cons_of_mem e0 hx))]
  simp

/-- `removeParticipant`'s scan over well-formed encoded entries: entries
whose recipient equals the target are dropped, the rest kept in order, and
`senderPublicKey` ends as the last entry's sender (dropped or not). -/
theorem removeLoop_encode (t : List Nat) :
    ∀ (es : List Entry) (tail : List Nat) (recs ks : List (List Nat))
      (snd : Option (List Nat)), WFEntries es →
      removeLoop t es.length ⟨encodeEntries es ++ tail, recs, ks, snd⟩ =
        ⟨tail, recs ++ ((es.filter (fun e => e.recipient != t)).map Entry.recipient),
          ks ++ ((es.filter (fun e => e.recipient != t)).map Entry.key),
          lastSenderFrom snd es⟩
  | [], tail, recs, ks, snd, _ => by simp [removeLoop, encodeEntries, lastSenderFrom]
  | e :: es, tail, recs, ks, snd, hwf => by
    obtain ⟨h1, h2, -, h4⟩ := hwf e (List.mem_cons_self e es)
    rw [List.length_cons, encodeEntries_cons, List.append_assoc, encodeEntry_split]
    simp only [removeLoop, readBytes_append _ h1, readBytes_append _ h2,
      readVarIntNum_write _ h4, readBytes_append _ (rfl : e.key.length = e.key.length),
      h1, h2, ne_eq, not_true_eq_false, ite_false]
    have ih := removeLoop_encode t es tail
    by_cases he : e.recipient = t
    · simp only [he, not_true_eq_false, ite_false, List.filter_cons, bne_self_eq_false,
        Bool.false_eq_true, if_false]
      rw [ih recs ks (some e.sender) (fun x hx => hwf x (List.mem_cons_of_mem e hx))]
      simp [lastSenderFrom]
    · simp only [he, not_false_eq_true, ite_true, List.filter_cons,
        show (e.recipient != t) = true by simpa using he, if_true]
      rw [ih (recs ++ [e.recipient]) (ks ++ [e.key]) (some e.sender)
        (fun x hx => hwf x (List.mem_cons_of_mem e hx))]
      simp [lastSenderFrom]

/-- `decrypt`'s scan over well-formed encoded entries when every unwrap
attempt fails: no symmetric key is ever recovered, whether or not entries
match the caller. -/
theorem decryptLoop_encode_fail (w : Wallet)
    (hfail : ∀ c k pt, w.wdecrypt c k ≠ .ok pt) :
    ∀ (es : List Entry) (tail : List Nat), WFEntries es →
      decryptLoop w es.length (encodeEntries es ++ tail) = none
  | [], _, _ => by simp [decryptLoop]
  | e :: es, tail, hwf => by
    obtain ⟨h1, h2, -, h4⟩ := hwf e (List.mem_cons_self e es)
    have ih := decryptLoop_encode_fail w hfail es tail
      (fun x hx => hwf x (List.mem_cons_of_mem e hx))
    rw [List.length_cons, encodeEntries_cons, List.append_assoc, encodeEntry_split]
    simp only [decryptLoop, readBytes_append _ h1, readBytes_append _ h2,
      readVarIntNum_write _ h4, readBytes_append _ (rfl : e.key.length = e.key.length)]
    by_cases hid : e.recipient = w.identity
    · rw [if_pos hid]
      cases hW : w.wdecrypt e.sender e.key with
      | ok pt => exact absurd hW (hfail _ _ _)
      | error m => simpa using ih
    · rw [if_neg hid]
      exact ih

theorem getLastD_mem : ∀ (es : List Entry) (e : Entry), es.getLastD e ∈ e :: es
  | [], _ => List.mem_cons_self _ _
  | e' :: es, e => by
    rw [List.getLastD_cons]
    have h := getLastD_mem es e'
    rcases List.mem_cons.mp h with h | h
    · rw [h]
      exact List.mem_cons_of_mem _ (List.mem_cons_self _ _)
    · exact List.mem_cons_of_mem _ (List.mem_cons_of_mem _ h)

/-- `encrypt` with defaulted administrators, when every wrap succeeds and the
cleaning pass keeps at least one recipient: the emitted header is the encoded
envelope of the *cleaned* recipient list (malformed or keyless recipients
silently dropped, duplicates kept), every entry carrying the caller as wrap
counterparty, at version 1. -/
theorem encrypt_clean (w : Wallet) (symKey msg : List Nat)
    (symEncrypt : List Nat → List Nat → List Nat) (rs ks : List (List Nat))
    (hw : wrapForAll w symKey rs = .ok ks) (hid : w.identity.length = 33)
    (hcl : cleanRecipients rs ks 0 ≠ []) :
    encrypt w symKey symEncrypt msg rs none =
      .ok (symEncrypt symKey msg,
        encodeEnvelope 1
          ((cleanRecipients rs ks 0).map fun p => ⟨p.1, w.identity, p.2⟩)
          [w.identity] []) := by
  have hfsa : findShortAdmin [w.identity] = none :=
    findShortAdmin_none _ (by intro a ha; rw [List.mem_singleton] at ha; subst ha; exact hid)
  have hbh := buildHeader_ok w.identity rs ks [w.identity] 0 hid hcl
    (by simp) (by intro a ha; rw [List.mem_singleton] at ha; subst ha; exact hid)
  simp only [encrypt, encryptInner, hfsa, hw, hbh]

/-- `addParticipant` on a well-formed encoded envelope whose first entry the
wallet unwraps and whose recipients do not contain the new participant: it
succeeds, and the emitted header carries every old recipient plus the new
one, all wrapped — according to the header — by the *last* entry's sender
key, at the incremented version. -/
theorem addParticipant_spec (w : Wallet) (v : Nat) (e0 : Entry) (es : List Entry)
    (adm : List (List Nat)) (body : List Nat) (p pt ct : List Nat)
    (hwf : WFEnvelope v (e0 :: es) adm)
    (hdec : w.wdecrypt e0.sender e0.key = .ok pt)
    (hp : p ∉ (e0 :: es).map Entry.recipient)
    (henc : w.wencrypt p pt = .ok ct)
    (hp33 : p.length = 33) (hct : ct ≠ []) :
    addParticipant w (encodeEnvelope v (e0 :: es) adm body) p =
      .ok (encodeEnvelope (v + 1)
        (((e0 :: es).map fun e => ⟨e.recipient, (es.getLastD e0).sender, e.key⟩) ++
          [⟨p, (es.getLastD e0).sender, ct⟩]) adm []) := by
  obtain ⟨hv1, hv2, hne, hes, hn, ⟨hadmne, hadm33, hm⟩, hlen⟩ := hwf
  have hph := parseHeader_encode v (e0 :: es) adm body
    ⟨hv1, hv2, hne, hes, hn, ⟨hadmne, hadm33, hm⟩, hlen⟩
  have hsd33 : (es.getLastD e0).sender.length = 33 :=
    (hes _ (getLastD_mem es e0)).2.1
  have hLoop := addLoop_encode_first w e0 es
    (writeVarIntNum adm.length ++ adm.flatten) pt hes hdec
  have hps : ∀ q ∈ ((e0 :: es).map fun e => (e.recipient, e.key)) ++ [(p, ct)],
      q.1.length = 33 ∧ q.2 ≠ [] := by
    intro q hq
    rcases List.mem_append.mp hq with hq | hq
    · obtain ⟨e, he, rfl⟩ := List.mem_map.mp hq
      exact ⟨(hes e he).1, (hes e he).2.2.1⟩
    · rw [List.mem_singleton] at hq; subst hq
      exact ⟨hp33, hct⟩
  have hclean := cleanRecipients_valid
    (((e0 :: es).map fun e => (e.recipient, e.key)) ++ [(p, ct)]) [] hps
  have hclean' : cleanRecipients ((e0 :: es).map Entry.recipient ++ [p])
      ((e0 :: es).map Entry.key ++ [ct]) 0 =
      ((e0 :: es).map fun e => (e.recipient, e.key)) ++ [(p, ct)] := by
    simpa [Function.comp_def] using hclean
  have hbh := buildHeader_ok (es.getLastD e0).sender
    ((e0 :: es).map Entry.recipient ++ [p]) ((e0 :: es).map Entry.key ++ [ct])
    adm v hsd33 (by rw [hclean']; simp) hadmne hadm33
  rw [hclean'] at hbh
  simp only [addParticipant, addParticipantInner, hph]
  simp only [headerContent, List.append_assoc, readUInt32LE_write _ hv2]
  rw [if_neg (by omega)]
  simp only [readVarIntNum_write _ hn]
  rw [if_neg (by simp)]
  simp only [hLoop, lastSenderFrom_some]
  rw [if_neg (by simpa using hp)]
  simp only [henc, hbh]
  simp [List.map_append, List.map_map, Function.comp_def]

/-- `removeParticipant` on a well-formed encoded envelope, called by an
administrator, when at least one entry survives the filter: it succeeds, and
the emitted header carries exactly the surviving entries — every one wrapped,
according to the header, by the last old entry's sender key — at the
incremented version.  An absent target leaves the entry list unchanged. -/
theorem removeParticipant_spec (w : Wallet) (v : Nat) (e0 : Entry) (es : List Entry)
    (adm : List (List Nat)) (body : List Nat) (t : List Nat)
    (hwf : WFEnvelope v (e0 :: es) adm) (hin : w.identity ∈ adm)
    (hkeep : (e0 :: es).filter (fun e => e.recipient != t) ≠ []) :
    removeParticipant w (encodeEnvelope v (e0 :: es) adm body) t =
      .ok (encodeEnvelope (v + 1)
        (((e0 :: es).filter (fun e => e.recipient != t)).map
          fun e => ⟨e.recipient, (es.getLastD e0).sender, e.key⟩) adm []) := by
  obtain ⟨hv1, hv2, hne, hes, hn, ⟨hadmne, hadm33, hm⟩, hlen⟩ := hwf
  have hph := parseHeader_encode v (e0 :: es) adm body
    ⟨hv1, hv2, hne, hes, hn, ⟨hadmne, hadm33, hm⟩, hlen⟩
  have hsd33 : (es.getLastD e0).sender.length = 33 :=
    (hes _ (getLastD_mem es e0)).2.1
  have hLoop := removeLoop_encode t (e0 :: es)
    (writeVarIntNum adm.length ++ adm.flatten) [] [] none hes
  have hps : ∀ q ∈ ((e0 :: es).filter (fun e => e.recipient != t)).map
      fun e => (e.recipient, e.key), q.1.length = 33 ∧ q.2 ≠ [] := by
    intro q hq
    obtain ⟨e, he, rfl⟩ := List.mem_map.mp hq
    have he' := List.mem_of_mem_filter he
    exact ⟨(hes e he').1, (hes e he').2.2.1⟩
  have hclean := cleanRecipients_valid
    (((e0 :: es).filter (fun e => e.recipient != t)).map fun e => (e.recipient, e.key))
    [] hps
  have hclean' : cleanRecipients
      (((e0 :: es).filter (fun e => e.recipient != t)).map Entry.recipient)
      (((e0 :: es).filter (fun e => e.recipient != t)).map Entry.key) 0 =
      ((e0 :: es).filter (fun e => e.recipient != t)).map
        fun e => (e.recipient, e.key) := by
    simpa [Function.comp_def] using hclean
  have hbh := buildHeader_ok (es.getLastD e0).sender
    (((e0 :: es).filter (fun e => e.recipient != t)).map Entry.recipient)
    (((e0 :: es).filter (fun e => e.recipient != t)).map Entry.key)
    adm v hsd33 (by rw [hclean']; simpa using hkeep) hadmne hadm33
  rw [hclean'] at hbh
  have hnotin : t ∉ ((e0 :: es).filter (fun e => e.recipient != t)).map
      Entry.recipient := by
    intro hmem
    obtain ⟨e, he, hre⟩ := List.mem_map.mp hmem
    have := List.of_mem_filter he
    rw [hre] at this
    simp at this
  simp only [removeParticipant, removeParticipantInner, hph]
  simp only [headerContent, List.append_assoc, readUInt32LE_write _ hv2]
  rw [if_neg (by omega), if_neg (by simpa using hin)]
  simp only [readVarIntNum_write _ hn]
  rw [if_neg (by simp)]
  simp only [hLoop, List.nil_append, lastSenderFrom, lastSenderFrom_some]
  rw [if_neg hnotin]
  simp only [hbh]
  simp [List.map_map, Function.comp_def]

/-- `decrypt` on a well-formed encoded envelope when every unwrap attempt
fails: the result is the one "not found" error — the same error a
non-recipient receives. -/
theorem decrypt_allfail (w : Wallet) (symDecrypt : List Nat → List Nat → List Nat)
    (v : Nat) (es : List Entry) (adm : List (List Nat)) (body : List Nat)
    (hwf : WFEnvelope v es adm)
    (hfail : ∀ c k pt, w.wdecrypt c k ≠ .ok pt) :
    decrypt w symDecrypt (encodeEnvelope v es adm body) =
      .error "Decryption failed: Your key is not found in the header." := by
  obtain ⟨hv1, hv2, hne, hes, hn, ⟨hadmne, hadm33, hm⟩, hlen⟩ := hwf
  have hph := parseHeader_encode v es adm body
    ⟨hv1, hv2, hne, hes, hn, ⟨hadmne, hadm33, hm⟩, hlen⟩
  have hLoop := decryptLoop_encode_fail w hfail es
    (writeVarIntNum adm.length ++ adm.flatten) hes
  simp only [decrypt, decryptInner, hph]
  simp only [headerContent, List.append_assoc, readUInt32LE_write _ hv2,
    readVarIntNum_write _ hn, hLoop]
  rfl

theorem readUInt32LE_write_mod (n : Nat) (t : List Nat) :
    readUInt32LE (writeUInt32LE n ++ t) = some (n % 4294967296, t) := by
  simp only [writeUInt32LE, List.cons_append, List.nil_append, readUInt32LE,
    Option.some.injEq, Prod.mk.injEq, and_true]
  omega

theorem writeVarIntNum_length_pos (n : Nat) : 0 < (writeVarIntNum n).length := by
  by_cases h1 : n < 253 <;> by_cases h2 : n < 65536 <;> by_cases h3 : n < 4294967296 <;>
    simp [writeVarIntNum, h1, h2, h3, writeUInt32LE]

theorem readVarIntNum_write53 (n : Nat) (h : n < 9007199254740992) (t : List Nat) :
    readVarIntNum (writeVarIntNum n ++ t) = some (n, t) := by
  by_cases h4 : n < 4294967296
  · exact readVarIntNum_write n h4 t
  · have hm : n % 256 + 256 * (n / 256 % 256) + 65536 * (n / 65536 % 256) +
        16777216 * (n / 16777216 % 256) + 4294967296 * (n / 4294967296 % 256) +
        1099511627776 * (n / 1099511627776 % 256) +
        281474976710656 * (n / 281474976710656 % 256) +
        72057594037927936 * (n / 72057594037927936 % 256) = n := by
      omega
    simp only [writeVarIntNum, if_neg (by omega : ¬ n < 253),
      if_neg (by omega : ¬ n < 65536), if_neg h4, List.cons_append, List.nil_append,
      readVarIntNum]
    rw [if_neg (by omega), if_neg (by omega), if_neg (by omega)]
    simp only [hm]
    rw [if_pos h]

/-- Any header `buildHeader` emits is a varint length prefix followed by the
four version bytes of `currentVersion + 1` and the remaining fields. -/
theorem buildHeader_ok_shape (sender : List Nat) (rs ks adm : List (List Nat))
    (v : Nat) (out : List Nat) (h : buildHeader sender rs ks adm v = .ok out) :
    ∃ rest, out = writeVarIntNum ((writeUInt32LE (v + 1) ++ rest).length) ++
      (writeUInt32LE (v + 1) ++ rest) := by
  unfold buildHeader at h
  split at h
  · exact absurd h (by simp)
  · split at h
    · exact absurd h (by simp)
    · split at h
      · exact absurd h (by simp)
      · split at h
        · exact absurd h (by simp)
        · refine ⟨writeVarIntNum (cleanRecipients rs ks 0).length ++
            (((cleanRecipients rs ks 0).map (fun p => p.1 ++ sender ++
              writeVarIntNum p.2.length ++ p.2)).flatten ++
            (writeVarIntNum adm.length ++ adm.flatten)), ?_⟩
          rw [← Except.ok.inj h]
          simp [buildHeaderContent, List.append_assoc]

/-- The version field of any header `buildHeader` emits is
`(currentVersion + 1) mod 2^32`. -/
theorem headerVersion_buildHeader (sender : List Nat) (rs ks adm : List (List Nat))
    (v : Nat) (out : List Nat) (h : buildHeader sender rs ks adm v = .ok out)
    (hsmall : out.length < 9007199254740992) :
    headerVersion out = some ((v + 1) % 4294967296) := by
  obtain ⟨rest, rfl⟩ := buildHeader_ok_shape sender rs ks adm v out h
  have hpos := writeVarIntNum_length_pos ((writeUInt32LE (v + 1) ++ rest).length)
  rw [List.length_append] at hsmall
  have hlen : (writeUInt32LE (v + 1) ++ rest).length < 9007199254740992 := by omega
  simp only [headerVersion, readVarIntNum_write53 _ hlen, List.append_assoc,
    readUInt32LE_write_mod]

/-- The version that `addParticipant`/`removeParticipant` decode from their
input and feed (plus one) to `buildHeader`: the u32 at the head of the parsed
header sub-buffer. -/
def decodedInputVersion (iheader : List Nat) : Option Nat :=
  match parseHeader iheader with
  | .error _ => none
  | .ok ph =>
    match readUInt32LE ph.header with
    | none => none
    | some (version, _) => some version

/-- Every header a successful `encrypt` emits has version exactly 1. -/
theorem encrypt_version (w : Wallet) (symKey : List Nat)
    (symEncrypt : List Nat → List Nat → List Nat) (msg : List Nat)
    (rs : List (List Nat)) (adminsOpt : Option (List (List Nat)))
    (em env : List Nat)
    (h : encrypt w symKey symEncrypt msg rs adminsOpt = .ok (em, env))
    (hsmall : env.length < 9007199254740992) :
    headerVersion env = some 1 := by
  cases hinner : encryptInner w symKey symEncrypt msg rs adminsOpt with
  | error e =>
    simp only [encrypt, hinner] at h
    exact absurd h (by simp)
  | ok res =>
    simp only [encrypt, hinner] at h
    rw [Except.ok.inj h] at hinner
    simp only [encryptInner] at hinner
    generalize hA : (match adminsOpt with
      | none => [w.identity]
      | some l => if w.identity ∈ l then l else w.identity :: l) = admins at hinner
    cases hfsa : findShortAdmin admins with
    | some a => rw [hfsa] at hinner; simp at hinner
    | none =>
      simp only [hfsa] at hinner
      cases hwr : wrapForAll w symKey rs with
      | error e => rw [hwr] at hinner; simp at hinner
      | ok ks =>
        simp only [hwr] at hinner
        cases hbh : buildHeader w.identity rs ks admins 0 with
        | error e => rw [hbh] at hinner; simp at hinner
        | ok header =>
          simp only [hbh] at hinner
          have henv : env = header := (Prod.mk.inj (Except.ok.inj hinner)).2.symm
          subst henv
          exact headerVersion_buildHeader _ _ _ _ _ _ hbh hsmall

/-- Every header a successful `addParticipant` emits has version exactly one
more than the version decoded from its input header. -/
theorem addParticipant_version (w : Wallet) (iheader p out : List Nat) (v : Nat)
    (h : addParticipant w iheader p = .ok out)
    (hv : decodedInputVersion iheader = some v) (hlt : v + 1 < 4294967296)
    (hsmall : out.length < 9007199254740992) :
    headerVersion out = some (v + 1) := by
  cases hinner : addParticipantInner w iheader p with
  | error e =>
    simp only [addParticipant, hinner] at h
    exact absurd h (by simp)
  | ok res =>
    simp only [addParticipant, hinner] at h
    rw [Except.ok.inj h] at hinner
    simp only [addParticipantInner] at hinner
    cases hph : parseHeader iheader with
    | error e => rw [hph] at hinner; simp at hinner
    | ok ph =>
      simp only [hph] at hinner
      cases hver : readUInt32LE ph.header with
      | none => rw [hver] at hinner; simp at hinner
      | some pr =>
        obtain ⟨version, h1⟩ := pr
        simp only [hver] at hinner
        have hvv : version = v := by
          simp only [decodedInputVersion, hph, hver] at hv
          exact Option.some.inj hv
        subst hvv
        by_cases hv1 : version < 1
        · rw [if_pos hv1] at hinner; simp at hinner
        · rw [if_neg hv1] at hinner
          cases hnum : readVarIntNum h1 with
          | none => rw [hnum] at hinner; simp at hinner
          | some pr2 =>
            obtain ⟨numRecipients, h2⟩ := pr2
            simp only [hnum] at hinner
            by_cases hn0 : numRecipients ≤ 0
            · rw [if_pos hn0] at hinner; simp at hinner
            · rw [if_neg hn0] at hinner
              cases hsdr : (addLoop w numRecipients ⟨h2, [], [], none, none⟩).sender with
              | none => rw [hsdr] at hinner; simp at hinner
              | some senderPublicKey =>
                simp only [hsdr] at hinner
                by_cases hmem : p ∈ (addLoop w numRecipients ⟨h2, [], [], none, none⟩).recipients
                · rw [if_pos hmem] at hinner; simp at hinner
                · rw [if_neg hmem] at hinner
                  cases hsym : (addLoop w numRecipients ⟨h2, [], [], none, none⟩).sym with
                  | none => rw [hsym] at hinner; simp at hinner
                  | some symKey =>
                    simp only [hsym] at hinner
                    cases hen : w.wencrypt p symKey with
                    | error e => rw [hen] at hinner; simp at hinner
                    | ok ct =>
                      simp only [hen] at hinner
                      rw [headerVersion_buildHeader _ _ _ _ _ _ hinner hsmall,
                        Nat.mod_eq_of_lt hlt]

/-- Every header a successful `removeParticipant` emits has version exactly
one more than the version decoded from its input header. -/
theorem removeParticipant_version (w : Wallet) (iheader t out : List Nat) (v : Nat)
    (h : removeParticipant w iheader t = .ok out)
    (hv : decodedInputVersion iheader = some v) (hlt : v + 1 < 4294967296)
    (hsmall : out.length < 9007199254740992) :
    headerVersion out = some (v + 1) := by
  cases hinner : removeParticipantInner w iheader t with
  | error e =>
    simp only [removeParticipant, hinner] at h
    exact absurd h (by simp)
  | ok res =>
    simp only [removeParticipant, hinner] at h
    rw [Except.ok.inj h] at hinner
    simp only [removeParticipantInner] at hinner
    cases hph : parseHeader iheader with
    | error e => rw [hph] at hinner; simp at hinner
    | ok ph =>
      simp only [hph] at hinner
      cases hver : readUInt32LE ph.header with
      | none => rw [hver] at hinner; simp at hinner
      | some pr =>
        obtain ⟨version, h1⟩ := pr
        simp only [hver] at hinner
        have hvv : version = v := by
          simp only [decodedInputVersion, hph, hver] at hv
          exact Option.some.inj hv
        subst hvv
        by_cases hv1 : version < 1
        · rw [if_pos hv1] at hinner; simp at hinner
        · rw [if_neg hv1] at hinner
          by_cases hadm : w.identity ∉ ph.administrators
          · rw [if_pos hadm] at hinner; simp at hinner
          · rw [if_neg hadm] at hinner
            cases hnum : readVarIntNum h1 with
            | none => rw [hnum] at hinner; simp at hinner
            | some pr2 =>
              obtain ⟨numRecipients, h2⟩ := pr2
              simp only [hnum] at hinner
              by_cases hn0 : numRecipients ≤ 0
              · rw [if_pos hn0] at hinner; simp at hinner
              · rw [if_neg hn0] at hinner
                cases hsdr : (removeLoop t numRecipients ⟨h2, [], [], none⟩).sender with
                | none => rw [hsdr] at hinner; simp at hinner
                | some senderPublicKey =>
                  simp only [hsdr] at hinner
                  by_cases hmem : t ∈ (removeLoop t numRecipients ⟨h2, [], [], none⟩).recipients
                  · rw [if_pos hmem] at hinner; simp at hinner
                  · rw [if_neg hmem] at hinner
                    rw [headerVersion_buildHeader _ _ _ _ _ _ hinner hsmall,
                      Nat.mod_eq_of_lt hlt]

theorem cleanRecipients_keeps_only_valid :
    ∀ (rs ks : List (List Nat)) (i : Nat) (p : List Nat × List Nat),
      p ∈ cleanRecipients rs ks i → p.1.length = 33
  | [], _, _, _, hp => absurd hp (List.not_mem_nil _)
  | r :: rs, ks, i, p, hp => by
    unfold cleanRecipients at hp
    by_cases hval : ¬ validatePublicKey r
    · rw [if_pos hval] at hp
      exact cleanRecipients_keeps_only_valid rs ks (i + 1) p hp
    · rw [if_neg hval] at hp
      cases hget : ks.get? i with
      | none =>
        simp only [hget] at hp
        exact cleanRecipients_keeps_only_valid rs ks (i + 1) p hp
      | some k =>
        simp only [hget] at hp
        by_cases hk : k.length = 0
        · rw [if_pos hk] at hp
          exact cleanRecipients_keeps_only_valid rs ks (i + 1) p hp
        · rw [if_neg hk] at hp
          rcases List.mem_cons.mp hp with hp | hp
          · rw [hp]
            simpa [validatePublicKey] using hval
          · exact cleanRecipients_keeps_only_valid rs ks (i + 1) p hp

/-- `addLoop` never consults the wallet's identity: wallets sharing an
unwrap oracle run it identically. -/
theorem addLoop_ext (w1 w2 : Wallet) (hwd : w1.wdecrypt = w2.wdecrypt) :
    ∀ (n : Nat) (s : AddLoopState), addLoop w1 n s = addLoop w2 n s
  | 0, _ => rfl
  | n + 1, s => by
    have ih := addLoop_ext w1 w2 hwd n
    simp only [addLoop, hwd, ih]

set_option maxRecDepth 200000

/-! Concrete fixtures for the claim checks: distinct 33-byte identities,
small key blobs, a one-entry envelope, and oracle wallets. -/

def idA : List Nat := List.replicate 33 1
def idB : List Nat := List.replicate 33 2
def idC : List Nat := List.replicate 33 3
def idS : List Nat := List.replicate 33 9
def idT : List Nat := List.replicate 33 4
def keyAB : List Nat := [7, 7]
def ctNew : List Nat := [8, 8, 8]
def badId : List Nat := [0, 0]
def envA : List Nat := encodeEnvelope 1 [⟨idA, idS, keyAB⟩] [idA] []
def walletA : Wallet := ⟨idA, fun _ _ => .ok ctNew, fun _ _ => .ok [5]⟩
def walletB : Wallet := ⟨idB, fun _ _ => .ok ctNew, fun _ _ => .ok [5]⟩
def walletAfail : Wallet := ⟨idA, fun _ _ => .ok ctNew, fun _ _ => .error "unwrap refused"⟩
def walletBfail : Wallet := ⟨idB, fun _ _ => .ok ctNew, fun _ _ => .error "unwrap refused"⟩
def symCat : List Nat → List Nat → List Nat := fun k m => k ++ m

/-- An envelope whose header claims two recipient entries but carries only
one complete entry followed by five stray bytes: reading the second entry's
33-byte recipient identity underruns the header sub-buffer. -/
def c1content : List Nat :=
  writeUInt32LE 1 ++ writeVarIntNum 2 ++ encodeEntry ⟨idA, idS, keyAB⟩ ++ [9, 9, 9, 9, 9]

def c1input : List Nat := writeVarIntNum c1content.length ++ c1content

/-- C1: the claim (with the specification) mandates fail-closed decoding —
any recipient-entry read that underruns the buffer must fail the whole
decode.  The source instead warns and `continue`s past the malformed entry:
on `c1input`, whose second claimed entry underruns its 33-byte identity read,
`parseHeader` *returns* a parsed result (with the administrator count read
past the end of the exhausted buffer as JavaScript `undefined`, so the
administrator checks are skipped and the list comes back empty) instead of
failing. -/
theorem c1_parseHeader_fail_open :
    parseHeader c1input = .ok ⟨c1content, [], []⟩ := by rfl

/-- C2 counterexample: `envA` has exactly one entry, for `idA`; the caller
`walletB` (identity `idB ≠ idA`) has no entry, yet `addParticipant` returns a
new header rather than failing with a recipient-not-found error.  And under
the unwrap-refusing wallet (how an ECDH wallet behaves for a non-recipient)
the call fails only with the generic add-failure message, not a distinct
recipient-not-found error. -/
theorem c2_counterexample_nonmember_add_succeeds :
    envelopeEntries envA = some [⟨idA, idS, keyAB⟩] ∧ walletB.identity = idB ∧
      idB ≠ idA ∧
      addParticipant walletB envA idC =
        .ok (encodeEnvelope 2 [⟨idA, idS, keyAB⟩, ⟨idC, idS, ctNew⟩] [idA] []) ∧
      addParticipant walletBfail envA idC =
        .error "Failed to add new participant to the header." :=
  ⟨rfl, rfl, by decide, rfl, rfl⟩

/-- C2 amended: `addParticipant` performs no scan for the caller's own entry:
it never consults the caller's identity at all, so its outcome is identical
for any two wallets sharing the same wrap/unwrap oracles.  The symmetric key
is recovered by unwrapping entries in order (first success wins), not by
locating the caller's entry. -/
theorem c2_amended_add_ignores_caller_identity (id1 id2 : List Nat)
    (we wd : List Nat → List Nat → Except String (List Nat))
    (iheader newParticipant : List Nat) :
    addParticipant ⟨id1, we, wd⟩ iheader newParticipant =
      addParticipant ⟨id2, we, wd⟩ iheader newParticipant := by
  have hl := addLoop_ext ⟨id1, we, wd⟩ ⟨id2, we, wd⟩ rfl
  simp only [addParticipant, addParticipantInner, hl]

/-- C3 counterexample: on `envA` the caller `walletAfail` matches the single
entry but its unwrap fails, and the outsider `walletB` matches no entry; both
receive the byte-for-byte identical error — the two causes are reported as
the same error, not distinct ones. -/
theorem c3_counterexample_same_error :
    walletAfail.identity = idA ∧ envelopeEntries envA = some [⟨idA, idS, keyAB⟩] ∧
      idB ≠ idA ∧
      decrypt walletAfail symCat envA =
        .error "Decryption failed: Your key is not found in the header." ∧
      decrypt walletB symCat envA =
        .error "Decryption failed: Your key is not found in the header." :=
  ⟨rfl, rfl, by decide, rfl, rfl⟩

/-- C3 amended: when unwrapping fails on every attempt, `decrypt` falls
through the scan (the failure is caught and the loop continues) and reports
the same "Your key is not found in the header." error used for a caller with
no matching entry — unwrap failure and non-membership are indistinguishable
in the reported error. -/
theorem c3_amended_unwrap_failure_reported_as_not_found (w : Wallet)
    (symDecrypt : List Nat → List Nat → List Nat) (v : Nat) (es : List Entry)
    (adm : List (List Nat)) (body : List Nat) (hwf : WFEnvelope v es adm)
    (hfail : ∀ c k pt, w.wdecrypt c k ≠ .ok pt) :
    decrypt w symDecrypt (encodeEnvelope v es adm body) =
      .error "Decryption failed: Your key is not found in the header." :=
  decrypt_allfail w symDecrypt v es adm body hwf hfail

/-- Witness for the amended C3 at a concrete envelope and wallet. -/
theorem c3_amended_witness :
    decrypt walletAfail symCat (encodeEnvelope 1 [⟨idA, idS, keyAB⟩] [idA] []) =
      .error "Decryption failed: Your key is not found in the header." :=
  c3_amended_unwrap_failure_reported_as_not_found walletAfail symCat 1
    [⟨idA, idS, keyAB⟩] [idA] [] (by decide)
    (fun c k pt h => by simp [walletAfail] at h)

/-- C4 counterexample: `envA`'s only entry is for `idA`; removing the absent
`idB` (as the administrator `walletA`) does not fail with a
participant-not-found error — it returns a rebuilt header with the same
membership and a bumped version. -/
theorem c4_counterexample_remove_absent_succeeds :
    envelopeEntries envA = some [⟨idA, idS, keyAB⟩] ∧ idB ≠ idA ∧
      removeParticipant walletA envA idB =
        .ok (encodeEnvelope 2 [⟨idA, idS, keyAB⟩] [idA] []) :=
  ⟨rfl, by decide, rfl⟩

/-- C4 amended: when the target has no entry, `removeParticipant` (called by
an administrator) silently succeeds: the emitted header keeps every entry
(wrap counterparties rewritten to the last entry's sender) at the
incremented version; no participant-not-found error exists in the code. -/
theorem c4_amended_remove_absent_no_error (w : Wallet) (v : Nat) (e0 : Entry)
    (es : List Entry) (adm : List (List Nat)) (body : List Nat) (t : List Nat)
    (hwf : WFEnvelope v (e0 :: es) adm) (hin : w.identity ∈ adm)
    (habs : ∀ e ∈ e0 :: es, e.recipient ≠ t) :
    removeParticipant w (encodeEnvelope v (e0 :: es) adm body) t =
      .ok (encodeEnvelope (v + 1)
        ((e0 :: es).map fun e => ⟨e.recipient, (es.getLastD e0).sender, e.key⟩)
        adm []) := by
  have hfe : (e0 :: es).filter (fun e => e.recipient != t) = e0 :: es :=
    List.filter_eq_self.mpr (fun e he => by simpa using habs e he)
  have h := removeParticipant_spec w v e0 es adm body t hwf hin
    (by rw [hfe]; simp)
  rw [hfe] at h
  exact h

/-- Witness for the amended C4 at a concrete envelope, administrator caller
and absent target. -/
theorem c4_amended_witness :
    removeParticipant walletA (encodeEnvelope 1 [⟨idA, idS, keyAB⟩] [idA] []) idB =
      .ok (encodeEnvelope 2
        (([⟨idA, idS, keyAB⟩] : List Entry).map fun e =>
          ⟨e.recipient, (([] : List Entry).getLastD ⟨idA, idS, keyAB⟩).sender, e.key⟩)
        [idA] []) :=
  c4_amended_remove_absent_no_error walletA 1 ⟨idA, idS, keyAB⟩ [] [idA] [] idB
    (by decide) (by decide) (by decide)

/-- C5 counterexample: the caller `walletB` (identity `idB`) adds `idC` to
`envA`, whose single entry's wrap counterparty is `idS ≠ idB`; the appended
entry records `idS` — the old header's sender — as its wrap counterparty,
not the caller identity actually used as the ECDH counterparty for the new
wrap. -/
theorem c5_counterexample_wrap_counterparty_is_old_sender :
    walletB.identity = idB ∧ idS ≠ idB ∧
      addParticipant walletB envA idC =
        .ok (encodeEnvelope 2 [⟨idA, idS, keyAB⟩, ⟨idC, idS, ctNew⟩] [idA] []) ∧
      envelopeEntries
          (encodeEnvelope 2 [⟨idA, idS, keyAB⟩, ⟨idC, idS, ctNew⟩] [idA] []) =
        some [⟨idA, idS, keyAB⟩, ⟨idC, idS, ctNew⟩] :=
  ⟨rfl, by decide, rfl, rfl⟩

/-- C5 amended: the entry `addParticipant` appends records as its wrap
counterparty the sender key read from the last entry parsed out of the
existing header (the original creator, in headers this code emits) — the
caller's identity is never recorded (nor even read). -/
theorem c5_amended_appended_counterparty_is_last_sender (w : Wallet) (v : Nat)
    (e0 : Entry) (es : List Entry) (adm : List (List Nat)) (body : List Nat)
    (p pt ct : List Nat) (hwf : WFEnvelope v (e0 :: es) adm)
    (hdec : w.wdecrypt e0.sender e0.key = .ok pt)
    (hp : p ∉ (e0 :: es).map Entry.recipient)
    (henc : w.wencrypt p pt = .ok ct) (hp33 : p.length = 33) (hct : ct ≠ []) :
    addParticipant w (encodeEnvelope v (e0 :: es) adm body) p =
      .ok (encodeEnvelope (v + 1)
        (((e0 :: es).map fun e => ⟨e.recipient, (es.getLastD e0).sender, e.key⟩) ++
          [⟨p, (es.getLastD e0).sender, ct⟩]) adm []) :=
  addParticipant_spec w v e0 es adm body p pt ct hwf hdec hp henc hp33 hct

/-- Witness for the amended C5 at a concrete envelope and caller. -/
theorem c5_amended_witness :
    addParticipant walletB (encodeEnvelope 1 [⟨idA, idS, keyAB⟩] [idA] []) idC =
      .ok (encodeEnvelope 2
        ((([⟨idA, idS, keyAB⟩] : List Entry).map fun e =>
          ⟨e.recipient, (([] : List Entry).getLastD ⟨idA, idS, keyAB⟩).sender, e.key⟩) ++
          [⟨idC, (([] : List Entry).getLastD ⟨idA, idS, keyAB⟩).sender, ctNew⟩])
        [idA] []) :=
  c5_amended_appended_counterparty_is_last_sender walletB 1 ⟨idA, idS, keyAB⟩ []
    [idA] [] idC [5] ctNew (by decide) rfl (by decide) rfl (by decide) (by decide)

/-- C6 counterexample: `badId` is not a 33-byte identity, yet `encrypt`
succeeds — `buildHeader` silently drops the malformed recipient (the emitted
header carries only the valid `idB`), instead of failing with a validation
error naming it. -/
theorem c6_counterexample_malformed_recipient_dropped :
    badId.length ≠ 33 ∧
      encrypt walletA [4, 4] symCat [1, 2, 3] [badId, idB] none =
        .ok (symCat [4, 4] [1, 2, 3],
          encodeEnvelope 1 [⟨idB, idA, ctNew⟩] [idA] []) :=
  ⟨by decide, rfl⟩

/-- C6 amended: `encrypt` never validates recipient identities; the cleaning
pass of `buildHeader` silently drops every malformed recipient, and the call
succeeds whenever at least one valid recipient with a non-empty wrapped key
remains — no malformed recipient ever reaches the emitted header, and no
error names one. -/
theorem c6_amended_recipients_silently_cleaned (w : Wallet) (symKey msg : List Nat)
    (symEncrypt : List Nat → List Nat → List Nat) (rs ks : List (List Nat))
    (hw : wrapForAll w symKey rs = .ok ks) (hid : w.identity.length = 33)
    (hcl : cleanRecipients rs ks 0 ≠ []) :
    encrypt w symKey symEncrypt msg rs none =
      .ok (symEncrypt symKey msg,
        encodeEnvelope 1
          ((cleanRecipients rs ks 0).map fun p => ⟨p.1, w.identity, p.2⟩)
          [w.identity] []) ∧
    ∀ r ∈ rs, r.length ≠ 33 → r ∉ (cleanRecipients rs ks 0).map Prod.fst := by
  refine ⟨encrypt_clean w symKey msg symEncrypt rs ks hw hid hcl, ?_⟩
  intro r _ hr hmem
  obtain ⟨q, hq, rfl⟩ := List.mem_map.mp hmem
  exact hr (cleanRecipients_keeps_only_valid rs ks 0 q hq)

/-- Witness for the amended C6 at a concrete recipient list containing a
malformed identity. -/
theorem c6_amended_witness :
    (encrypt walletA [4, 4] symCat [1, 2, 3] [badId, idB] none =
      .ok (symCat [4, 4] [1, 2, 3],
        encodeEnvelope 1
          ((cleanRecipients [badId, idB] [ctNew, ctNew] 0).map
            fun p => ⟨p.1, walletA.identity, p.2⟩)
          [walletA.identity] []) ∧
     ∀ r ∈ [badId, idB], r.length ≠ 33 →
       r ∉ (cleanRecipients [badId, idB] [ctNew, ctNew] 0).map Prod.fst) :=
  c6_amended_recipients_silently_cleaned walletA [4, 4] [1, 2, 3] symCat
    [badId, idB] [ctNew, ctNew] rfl (by decide) (by decide)

/-- C7 counterexample: a duplicated recipient list yields one entry per
occurrence — two entries for `idB` — not one entry per distinct recipient. -/
theorem c7_counterexample_duplicates_kept :
    encrypt walletA [4, 4] symCat [1, 2, 3] [idB, idB] none =
      .ok (symCat [4, 4] [1, 2, 3],
        encodeEnvelope 1 [⟨idB, idA, ctNew⟩, ⟨idB, idA, ctNew⟩] [idA] []) := rfl

/-- C7 amended: `encrypt` performs no deduplication — every valid occurrence
of a recipient, duplicates included, becomes an entry, in order — and it
fails with the no-valid-recipients error when the recipient list is empty. -/
theorem c7_amended_no_dedup_and_empty_fails :
    (∀ (w : Wallet) (symKey msg : List Nat)
      (symEncrypt : List Nat → List Nat → List Nat), w.identity.length = 33 →
      encrypt w symKey symEncrypt msg [] none =
        .error "Encryption failed: No valid recipients found to build the header.") ∧
    (∀ (w : Wallet) (symKey msg : List Nat)
      (symEncrypt : List Nat → List Nat → List Nat)
      (ps : List (List Nat × List Nat)),
      wrapForAll w symKey (ps.map Prod.fst) = .ok (ps.map Prod.snd) →
      w.identity.length = 33 → ps ≠ [] →
      (∀ q ∈ ps, q.1.length = 33 ∧ q.2 ≠ []) →
      encrypt w symKey symEncrypt msg (ps.map Prod.fst) none =
        .ok (symEncrypt symKey msg,
          encodeEnvelope 1 (ps.map fun q => ⟨q.1, w.identity, q.2⟩)
            [w.identity] [])) := by
  constructor
  · intro w symKey msg symEncrypt hid
    have hfsa : findShortAdmin [w.identity] = none :=
      findShortAdmin_none _
        (by intro a ha; rw [List.mem_singleton] at ha; subst ha; exact hid)
    have hbb : buildHeader w.identity [] [] [w.identity] 0 =
        .error "No valid recipients found to build the header." := by
      simp [buildHeader, validatePublicKey, hid, cleanRecipients]
    simp only [encrypt, encryptInner, hfsa, wrapForAll, hbb]
    rfl
  · intro w symKey msg symEncrypt ps hw hid hne hq
    have hcv := cleanRecipients_valid ps [] hq
    simp only [List.nil_append, List.length_nil] at hcv
    have h := encrypt_clean w symKey msg symEncrypt (ps.map Prod.fst)
      (ps.map Prod.snd) hw hid (by rw [hcv]; exact hne)
    rw [hcv] at h
    exact h

/-- Witness for the amended C7: the empty list fails, and a duplicated pair
list yields two entries. -/
theorem c7_amended_witness :
    encrypt walletA [4, 4] symCat [1, 2, 3] [] none =
      .error "Encryption failed: No valid recipients found to build the header." ∧
    encrypt walletA [4, 4] symCat [1, 2, 3]
        ([(idB, ctNew), (idB, ctNew)].map Prod.fst) none =
      .ok (symCat [4, 4] [1, 2, 3],
        encodeEnvelope 1
          ([(idB, ctNew), (idB, ctNew)].map fun q => ⟨q.1, walletA.identity, q.2⟩)
          [walletA.identity] []) :=
  ⟨c7_amended_no_dedup_and_empty_fails.1 walletA [4, 4] [1, 2, 3] symCat (by decide),
   c7_amended_no_dedup_and_empty_fails.2 walletA [4, 4] [1, 2, 3] symCat
     [(idB, ctNew), (idB, ctNew)] rfl (by decide) (by decide) (by decide)⟩

/-- C8: the header `encrypt` creates carries version exactly 1, and every
successful `addParticipant` or `removeParticipant` emits a header whose
version field is the decoded input header's version plus exactly one (for
inputs whose version does not overflow the 32-bit field, and envelopes of
varint-representable size). -/
theorem c8_versioning :
    (∀ (w : Wallet) (symKey : List Nat)
      (symEncrypt : List Nat → List Nat → List Nat) (msg : List Nat)
      (rs : List (List Nat)) (adminsOpt : Option (List (List Nat)))
      (em env : List Nat),
      encrypt w symKey symEncrypt msg rs adminsOpt = .ok (em, env) →
      env.length < 9007199254740992 → headerVersion env = some 1) ∧
    (∀ (w : Wallet) (iheader p out : List Nat) (v : Nat),
      addParticipant w iheader p = .ok out →
      decodedInputVersion iheader = some v → v + 1 < 4294967296 →
      out.length < 9007199254740992 → headerVersion out = some (v + 1)) ∧
    (∀ (w : Wallet) (iheader t out : List Nat) (v : Nat),
      removeParticipant w iheader t = .ok out →
      decodedInputVersion iheader = some v → v + 1 < 4294967296 →
      out.length < 9007199254740992 → headerVersion out = some (v + 1)) :=
  ⟨fun w sk se m rs a em env h hs => encrypt_version w sk se m rs a em env h hs,
   fun w ih p out v h hv hlt hs => addParticipant_version w ih p out v h hv hlt hs,
   fun w ih t out v h hv hlt hs => removeParticipant_version w ih t out v h hv hlt hs⟩

/-- Witness for C8 at concrete calls: creation at version 1, an add from
version 1 to 2, a removal from version 1 to 2. -/
theorem c8_versioning_witness :
    headerVersion (encodeEnvelope 1 [⟨idB, idA, ctNew⟩] [idA] []) = some 1 ∧
    headerVersion (encodeEnvelope 2 [⟨idA, idS, keyAB⟩, ⟨idC, idS, ctNew⟩] [idA] []) =
      some (1 + 1) ∧
    headerVersion (encodeEnvelope 2 [⟨idA, idS, keyAB⟩] [idA] []) = some (1 + 1) :=
  ⟨c8_versioning.1 walletA [4, 4] symCat [1, 2, 3] [idB] none
      (symCat [4, 4] [1, 2, 3]) (encodeEnvelope 1 [⟨idB, idA, ctNew⟩] [idA] [])
      rfl (by decide),
   c8_versioning.2.1 walletB envA idC
      (encodeEnvelope 2 [⟨idA, idS, keyAB⟩, ⟨idC, idS, ctNew⟩] [idA] []) 1
      rfl rfl (by decide) (by decide),
   c8_versioning.2.2 walletA envA idB
      (encodeEnvelope 2 [⟨idA, idS, keyAB⟩] [idA] []) 1
      rfl rfl (by decide) (by decide)⟩

/-- C9: a leading header-length varint exceeding the bytes remaining after
it makes `parseHeader` fail with its one malformed-header error, returning
nothing. -/
theorem c9_headerlen_exceeds_buffer_fails (bs : List Nat) (hl : Nat)
    (rest : List Nat) (hread : readVarIntNum bs = some (hl, rest))
    (hgt : hl > rest.length) :
    parseHeader bs = .error "Failed to parse header or message." := by
  have hinner : parseHeaderInner bs = .error "Header length exceeds available data." := by
    simp only [parseHeaderInner, hread]
    rw [if_pos hgt]
  simp only [parseHeader, hinner]

/-- Witness for C9: the buffer `[5, 1]` claims a 5-byte header with only one
byte remaining. -/
theorem c9_witness :
    readVarIntNum [5, 1] = some (5, [1]) ∧ 5 > ([1] : List Nat).length ∧
      parseHeader [5, 1] = .error "Failed to parse header or message." :=
  ⟨rfl, by decide, c9_headerlen_exceeds_buffer_fails [5, 1] 5 [1] rfl (by decide)⟩

/-- C10: both mutations rewrite every emitted entry's wrap-counterparty
field to the one sender key taken from the last entry parsed out of the old
header; per-entry differences in the input are not preserved. -/
theorem c10_mutations_rewrite_counterparties (w : Wallet) (v : Nat) (e0 : Entry)
    (es : List Entry) (adm : List (List Nat)) (body : List Nat)
    (p pt ct t : List Nat) (hwf : WFEnvelope v (e0 :: es) adm)
    (hwfadd : WFEnvelope (v + 1)
      (((e0 :: es).map fun e => ⟨e.recipient, (es.getLastD e0).sender, e.key⟩) ++
        [⟨p, (es.getLastD e0).sender, ct⟩]) adm)
    (hwfrem : WFEnvelope (v + 1)
      (((e0 :: es).filter (fun e => e.recipient != t)).map
        fun e => ⟨e.recipient, (es.getLastD e0).sender, e.key⟩) adm)
    (hdec : w.wdecrypt e0.sender e0.key = .ok pt)
    (hp : p ∉ (e0 :: es).map Entry.recipient)
    (henc : w.wencrypt p pt = .ok ct) (hp33 : p.length = 33) (hct : ct ≠ [])
    (hin : w.identity ∈ adm)
    (hkeep : (e0 :: es).filter (fun e => e.recipient != t) ≠ []) :
    (∃ out, addParticipant w (encodeEnvelope v (e0 :: es) adm body) p = .ok out ∧
      ∃ es', envelopeEntries out = some es' ∧
        ∀ e' ∈ es', e'.sender = (es.getLastD e0).sender) ∧
    (∃ out, removeParticipant w (encodeEnvelope v (e0 :: es) adm body) t = .ok out ∧
      ∃ es', envelopeEntries out = some es' ∧
        ∀ e' ∈ es', e'.sender = (es.getLastD e0).sender) := by
  constructor
  · refine ⟨_, addParticipant_spec w v e0 es adm body p pt ct hwf hdec hp henc
      hp33 hct, _, envelopeEntries_encode _ _ _ _ hwfadd, ?_⟩
    intro e' he'
    rcases List.mem_append.mp he' with he' | he'
    · obtain ⟨e, -, rfl⟩ := List.mem_map.mp he'
      rfl
    · rw [List.mem_singleton] at he'
      subst he'
      rfl
  · refine ⟨_, removeParticipant_spec w v e0 es adm body t hwf hin hkeep, _,
      envelopeEntries_encode _ _ _ _ hwfrem, ?_⟩
    intro e' he'
    obtain ⟨e, -, rfl⟩ := List.mem_map.mp he'
    rfl

/-- Witness for C10 at a concrete two-entry envelope whose entries carry two
*different* wrap counterparties (`idS` and `idT`): after an add and after a
removal every emitted entry carries the last old entry's sender `idT`. -/
theorem c10_witness :
    (∃ out, addParticipant walletA
        (encodeEnvelope 5 [⟨idA, idS, keyAB⟩, ⟨idB, idT, keyAB⟩] [idA] []) idC =
        .ok out ∧
      ∃ es', envelopeEntries out = some es' ∧
        ∀ e' ∈ es', e'.sender =
          (([⟨idB, idT, keyAB⟩] : List Entry).getLastD ⟨idA, idS, keyAB⟩).sender) ∧
    (∃ out, removeParticipant walletA
        (encodeEnvelope 5 [⟨idA, idS, keyAB⟩, ⟨idB, idT, keyAB⟩] [idA] []) idB =
        .ok out ∧
      ∃ es', envelopeEntries out = some es' ∧
        ∀ e' ∈ es', e'.sender =
          (([⟨idB, idT, keyAB⟩] : List Entry).getLastD ⟨idA, idS, keyAB⟩).sender) :=
  c10_mutations_rewrite_counterparties walletA 5 ⟨idA, idS, keyAB⟩
    [⟨idB, idT, keyAB⟩] [idA] [] idC [5] ctNew idB (by decide) (by decide)
    (by decide) rfl (by decide) rfl (by decide) (by decide) (by decide) (by decide)

end CurvePoint
